import Mathlib

/-!
Shallow embedding of `hll.h` (San7o/hll.h), a header-only C99 HyperLogLog
implementation, together with proofs about it.

Modelling conventions:
* `hll_hash_t` is the default `unsigned int` (32 bits).  Machine integers are
  modelled as `Nat` with explicit `% 2 ^ 32` at the points where the C type
  wraps (hash values entering `hll_add`, register values entering the unary
  minus in `hll_count`).
* The register array pointer `hll_hash_t *_registers` is modelled as
  `Option (List Nat)`: `none` is a NULL pointer, `some regs` a (possibly
  dangling) non-NULL pointer to the array contents.  `HLL_CALLOC` is assumed
  to succeed and zero-fill; `HLL_FREE` releases memory without touching the
  struct, exactly as in the C source (`hll_destroy` does not clear the field).
* The hash function pointer field `hll_hash_func_t hash` of `hll_t` is
  modelled as an explicit function argument `hash : Nat → Nat → Nat` to the
  operations that call it; elements and their lengths are `Nat`.
* The NULL check on the `hll_t *` argument itself (`HLL_ERROR_HLL_NULL`) is
  not modelled: the embedding passes the pointed-to struct by value.
* `float` arithmetic in `hll_count` is idealised as exact arithmetic over `ℚ`,
  keeping every integer operation of the source exact: the `5 / 2` threshold
  is C integer division (value 2), the linear-counting quotient
  `registers_len / num_of_zero_registers` is C unsigned division, and the
  argument of `HLL_POWF(2, -hll->_registers[i])` is the C unsigned negation
  `(2^32 - r) % 2^32`.  In actual `float` arithmetic that `powf` overflows to
  `+inf` for any nonzero register, making the computed estimate 0; in the
  exact model it is an astronomically large rational, making the estimate a
  tiny positive number.  Every branch decision proved below is insensitive to
  this difference (both make the estimate smaller than the small-range
  threshold).  The transcendental calls `HLL_LOGF` are kept symbolic: the
  result of `hll_count` is an element of `count_result` recording which
  `return` statement fired and with which arguments.
-/

/-- C: `typedef int hll_error;` -/
abbrev hll_error : Type := Int

/-- C: `#define HLL_OK 0` -/
def HLL_OK : hll_error := 0

/-- C: `#define HLL_ERROR_HLL_NULL -1` -/
def HLL_ERROR_HLL_NULL : hll_error := -1

/-- C: `#define HLL_ERROR_INVALID_PRECISION -2` -/
def HLL_ERROR_INVALID_PRECISION : hll_error := -2

/-- C: `#define HLL_ERROR_HLL_UNINITIALIZED -3` -/
def HLL_ERROR_HLL_UNINITIALIZED : hll_error := -3

/-- C: `#define HLL_ERROR_ALLOCATING_MEMORY -4` -/
def HLL_ERROR_ALLOCATING_MEMORY : hll_error := -4

/-- C: `#define HLL_PRECISION_MIN 4` -/
def HLL_PRECISION_MIN : Nat := 4

/-- C: `#define HLL_PRECISION_MAX 16` -/
def HLL_PRECISION_MAX : Nat := 16

/-- The `hll_t` struct: register array pointer and precision.  The hash
function pointer field is modelled as an explicit argument of the operations
that use it (see the module docstring). -/
structure hll_t where
  _registers : Option (List Nat)
  precision : Nat
deriving DecidableEq

/-- C: `_hll_init_impl(hll_t *hll, hll_t *hll_src)`.  A `none` source models
a NULL `hll_src`.  The C function first copies `*hll = *hll_src` (when the
source is non-NULL), then validates the precision of the copied struct, then
allocates the zero-filled register array (allocation assumed to succeed). -/
def _hll_init_impl (hll : hll_t) (hll_src : Option hll_t) : hll_error × hll_t :=
  let hll1 : hll_t := match hll_src with
    | some src => src        -- *hll = *hll_src;
    | none => hll
  if hll1.precision < HLL_PRECISION_MIN ∨ HLL_PRECISION_MAX < hll1.precision then
    (HLL_ERROR_INVALID_PRECISION, hll1)
  else
    -- hll->_registers = HLL_CALLOC(sizeof(hll_hash_t), (1<<hll->precision));
    (HLL_OK, ⟨some (List.replicate (2 ^ hll1.precision) 0), hll1.precision⟩)

/-- C: `hll_init2(hll_t *hll, unsigned int precision)`: calls `_hll_init_impl`
with the compound literal `&(hll_t){.precision = precision}` whose remaining
fields are zero-initialised (`_registers = NULL`). -/
def hll_init2 (hll : hll_t) (precision : Nat) : hll_error × hll_t :=
  _hll_init_impl hll (some ⟨none, precision⟩)

/-- C: `hll_destroy(hll_t *hll)`.  Checks `hll->_registers == NULL`, then
calls `HLL_FREE(hll->_registers)`.  The struct itself is not modified by the
C code — in particular `_registers` is left as a dangling non-NULL pointer —
so the model returns the struct unchanged in both branches. -/
def hll_destroy (hll : hll_t) : hll_error × hll_t :=
  if hll._registers = none then
    (HLL_ERROR_HLL_UNINITIALIZED, hll)
  else
    (HLL_OK, hll)

/-- C: `hll_max(hll_hash_t a, hll_hash_t b) { return (a > b) ? a : b; }` -/
def hll_max (a b : Nat) : Nat :=
  if a > b then a else b

/-- The scan loop of `hll_get_hash_zeros`: starting at bit `i` with `fuel`
iterations left (the C loop runs `i` from 0 to `sizeof(hll_hash_t)*8 - 1`,
i.e. 32 iterations), count consecutive unset bits of `head` until a set bit
is found or the fuel is exhausted. -/
def hll_zeros_go (head : Nat) : Nat → Nat → Nat
  | _, 0 => 0
  | i, fuel + 1 => if head.testBit i then 0 else 1 + hll_zeros_go head (i + 1) fuel

/-- C: `hll_get_hash_zeros(hll_hash_t hash, unsigned int precision)`.
`head = hash & ((1 << precision) - 1)` is `hash % 2 ^ precision`; the loop
counts the low-order zero bits of `head`, scanning at most 32 bits. -/
def hll_get_hash_zeros (hash precision : Nat) : Nat :=
  hll_zeros_go (hash % 2 ^ precision) 0 32

/-- The register index computed inside `hll_add`:
`offset = sizeof(hll_hash_t)*8 - precision`,
`mask = ~((1 << offset) - 1)` (as a 32-bit unsigned value),
`idx = (hashed_elem & mask) >> offset`. -/
def hll_index (hashed_elem precision : Nat) : Nat :=
  let offset := 32 - precision
  let mask := (2 ^ 32 - 1) ^^^ ((1 <<< offset) - 1)
  (hashed_elem &&& mask) >>> offset

/-- C: `hll_add(hll_t *hll, hll_element_t element, unsigned int element_len)`.
The hash function pointer field is passed explicitly; its `unsigned int`
result is reduced `% 2 ^ 32`.  The update is
`hll->_registers[idx] = hll_max(hll->_registers[idx], hash_zeros + 1);`. -/
def hll_add (hash : Nat → Nat → Nat) (hll : hll_t) (element element_len : Nat) :
    hll_error × hll_t :=
  match hll._registers with
  | none => (HLL_ERROR_HLL_UNINITIALIZED, hll)
  | some regs =>
    let hashed_elem := hash element element_len % 2 ^ 32
    let idx := hll_index hashed_elem hll.precision
    let hash_zeros := hll_get_hash_zeros hashed_elem hll.precision
    (HLL_OK, ⟨some (regs.set idx (hll_max (regs.getD idx 0) (hash_zeros + 1))), hll.precision⟩)

/-- The `magic` (alpha) constant of `hll_count`, from the C `switch` on
`registers_len`; `0.673`, `0.697`, `0.709` and `0.7213 / (1 + 1.079 / m)`
as exact rationals. -/
def hll_magic (registers_len : Nat) : ℚ :=
  if registers_len = 16 then 673 / 1000
  else if registers_len = 32 then 697 / 1000
  else if registers_len = 64 then 709 / 1000
  else (7213 / 10000) / (1 + (1079 / 1000) / (registers_len : ℚ))

/-- One summand `HLL_POWF(2, -hll->_registers[i])` of the sum in `hll_count`.
The register has the unsigned type `hll_hash_t`, so the C unary minus
computes `(2^32 - r) % 2^32`, and `powf` receives that huge nonnegative
value.  Modelled exactly over `ℚ` (see the module docstring for the
relationship with `float` overflow to `+inf`). -/
def pow_term (r : Nat) : ℚ :=
  2 ^ ((2 ^ 32 - r % 2 ^ 32) % 2 ^ 32)

/-- The summation loop of `hll_count`:
`for (i = 0; i < registers_len - 1; ++i) sum += HLL_POWF(2, -registers[i]);`
Note the bound `registers_len - 1`. -/
def count_sum (regs : List Nat) (registers_len : Nat) : ℚ :=
  (List.range (registers_len - 1)).foldl (fun acc i => acc + pow_term (regs.getD i 0)) 0

/-- The zero-register counting loop of `hll_count`:
`for (i = 0; i < registers_len; ++i) if (registers[i] == 0) num++;` -/
def count_zero_registers (regs : List Nat) (registers_len : Nat) : Nat :=
  (List.range registers_len).foldl (fun acc i => if regs.getD i 0 = 0 then acc + 1 else acc) 0

/-- C: `estimate = magic * registers_len * registers_len * (1 / sum);` -/
def hll_estimate (regs : List Nat) (registers_len : Nat) : ℚ :=
  hll_magic registers_len * registers_len * registers_len * (1 / count_sum regs registers_len)

/-- Which `return` statement of `hll_count` fired, with its arguments.
* `err code`: one of the early error returns.
* `small_raw e`: small-range branch with `num_of_zero_registers == 0`;
  C returns `(int)e`.
* `linear_counting m v`: small-range branch with `v` zero registers;
  C returns `(int)(m * HLL_LOGF(m / v))` where `m / v` is C unsigned
  integer division.
* `mid_raw e`: intermediate branch; C returns `(int)e`.
* `large_range e`: large-range branch; C returns
  `(int)(-(float)(1ULL << 32) * HLL_LOGF(1 - e / (float)(1ULL << 32)))`. -/
inductive count_result where
  | err (code : hll_error)
  | small_raw (estimate : ℚ)
  | linear_counting (registers_len num_of_zero_registers : Nat)
  | mid_raw (estimate : ℚ)
  | large_range (estimate : ℚ)
deriving DecidableEq

/-- `true` iff the result came from the small-range branch of `hll_count`
(the branch guarded by `estimate < 5 / 2 * registers_len`, which counts the
zero registers). -/
def count_result.is_small_range : count_result → Bool
  | .small_raw _ => true
  | .linear_counting _ _ => true
  | _ => false

/-- C: `hll_count(hll_t *hll)`.  `registers_len = 1 << precision`.  The
small-range guard is `estimate < 5 / 2 * registers_len` where `5 / 2` is C
integer division (value 2); the intermediate guard is
`estimate <= (float)((1ULL << 32) / 30)` with integer division by 30. -/
def hll_count (hll : hll_t) : count_result :=
  match hll._registers with
  | none => .err HLL_ERROR_HLL_UNINITIALIZED
  | some regs =>
    if hll_estimate regs (2 ^ hll.precision) < ((5 / 2 : Nat) : ℚ) * ((2 ^ hll.precision : Nat) : ℚ) then
      if count_zero_registers regs (2 ^ hll.precision) = 0 then
        .small_raw (hll_estimate regs (2 ^ hll.precision))
      else
        .linear_counting (2 ^ hll.precision) (count_zero_registers regs (2 ^ hll.precision))
    else if hll_estimate regs (2 ^ hll.precision) ≤ ((2 ^ 32 / 30 : Nat) : ℚ) then
      .mid_raw (hll_estimate regs (2 ^ hll.precision))
    else
      .large_range (hll_estimate regs (2 ^ hll.precision))

/-- C: `hll_merge(hll_t *hll_dest, hll_t *hll_src)`.  The loop runs
`i < (1 << hll_dest->precision) && i < (1 << hll_src->precision)` and sets
`hll_dest->_registers[i] = hll_max(dest[i], src[i])`.  The source struct is
not modified (the model only returns the new destination). -/
def hll_merge (hll_dest hll_src : hll_t) : hll_error × hll_t :=
  match hll_dest._registers, hll_src._registers with
  | some dregs, some sregs =>
    (HLL_OK,
      ⟨some ((List.range (min (2 ^ hll_dest.precision) (2 ^ hll_src.precision))).foldl
          (fun rs i => rs.set i (hll_max (rs.getD i 0) (sregs.getD i 0))) dregs),
        hll_dest.precision⟩)
  | _, _ => (HLL_ERROR_HLL_UNINITIALIZED, hll_dest)

/-- Register `i` of an estimator (0 when the array is absent or `i` is out of
range), for stating register-wise properties. -/
def hll_t.reg (h : hll_t) (i : Nat) : Nat :=
  (h._registers.getD []).getD i 0

/-- The post-state of `hll_add` on a `(element, element_len)` pair, for
folding a stream of elements into an estimator. -/
def hll_add_state (hash : Nat → Nat → Nat) (s : hll_t) (el : Nat × Nat) : hll_t :=
  (hll_add hash s el.1 el.2).2

/-- Modelled from the spec: the raw estimate `E = alpha * m * m / Z` with
`Z = Σ 2^(-registers[i])` taken as true negative powers of two (exact
rationals), summed over the first `m - 1` registers as in the reference
implementation.  This follows the spec's words, to be compared with the
code's `hll_estimate`. -/
def raw_estimate_spec (regs : List Nat) (m : Nat) : ℚ :=
  hll_magic m * m * m / ∑ i ∈ Finset.range (m - 1), ((2 : ℚ) ^ regs.getD i 0)⁻¹

/-!  Helper lemmas (shared across the claim theorems). -/

theorem hll_max_eq_max (a b : Nat) : hll_max a b = max a b := by
  unfold hll_max
  rcases lt_or_ge b a with h | h
  · rw [if_pos h, Nat.max_eq_left h.le]
  · rw [if_neg (not_lt.mpr h), Nat.max_eq_right h]

theorem le_hll_max_left (a b : Nat) : a ≤ hll_max a b := by
  rw [hll_max_eq_max]; exact le_max_left a b

theorem getD_set_ne (l : List Nat) {i j : Nat} (h : i ≠ j) (a : Nat) :
    (l.set i a).getD j 0 = l.getD j 0 := by
  rw [List.getD_eq_getElem?_getD, List.getD_eq_getElem?_getD, List.getElem?_set_ne h]

theorem getD_set_lt (l : List Nat) {i : Nat} (h : i < l.length) (a : Nat) :
    (l.set i a).getD i 0 = a := by
  rw [List.getD_eq_getElem?_getD, List.getElem?_set_eq_of_lt a h]
  rfl

theorem foldl_add_eq_sum (f : Nat → ℚ) :
    ∀ (n : Nat) (init : ℚ),
      (List.range n).foldl (fun acc i => acc + f i) init = init + ∑ i ∈ Finset.range n, f i := by
  intro n
  induction n with
  | zero => intro init; simp
  | succ n ih =>
    intro init
    rw [List.range_succ, List.foldl_append, ih, Finset.sum_range_succ]
    simp [add_assoc]

theorem count_sum_eq_sum (regs : List Nat) (registers_len : Nat) :
    count_sum regs registers_len
      = ∑ i ∈ Finset.range (registers_len - 1), pow_term (regs.getD i 0) := by
  unfold count_sum
  rw [foldl_add_eq_sum (fun i => pow_term (regs.getD i 0)), zero_add]

theorem one_le_pow_term (r : Nat) : 1 ≤ pow_term r := by
  unfold pow_term
  exact one_le_pow₀ (by norm_num)

theorem count_sum_ge (regs : List Nat) (registers_len : Nat) :
    ((registers_len - 1 : Nat) : ℚ) ≤ count_sum regs registers_len := by
  rw [count_sum_eq_sum]
  calc ((registers_len - 1 : Nat) : ℚ)
      = ∑ _i ∈ Finset.range (registers_len - 1), (1 : ℚ) := by
        rw [Finset.sum_const, Finset.card_range, nsmul_eq_mul, mul_one]
    _ ≤ ∑ i ∈ Finset.range (registers_len - 1), pow_term (regs.getD i 0) :=
        Finset.sum_le_sum fun i _ => one_le_pow_term (regs.getD i 0)

theorem hll_magic_nonneg (registers_len : Nat) : 0 ≤ hll_magic registers_len := by
  unfold hll_magic
  split_ifs <;> positivity

theorem hll_magic_le (registers_len : Nat) : hll_magic registers_len ≤ 7213 / 10000 := by
  unfold hll_magic
  split_ifs with h1 h2 h3
  · norm_num
  · norm_num
  · norm_num
  · exact div_le_self (by norm_num) (le_add_of_nonneg_right (by positivity))

/-- Because each summand `pow_term r` is at least 1 (the unsigned negation
makes every exponent nonnegative), the computed sum is at least `m - 1` and
hence the computed estimate is always below the small-range threshold
`5 / 2 * m = 2 * m` for every precision `p ≥ 4`:  `hll_count` always takes
the small-range branch. -/
theorem hll_estimate_lt_threshold (regs : List Nat) (p : Nat) (hp : 4 ≤ p) :
    hll_estimate regs (2 ^ p) < ((5 / 2 : Nat) : ℚ) * ((2 ^ p : Nat) : ℚ) := by
  have hthr : ((5 / 2 : Nat) : ℚ) = 2 := by norm_num
  set L : ℚ := ((2 ^ p : Nat) : ℚ) with hLdef
  have hL : (16 : ℚ) ≤ L := by
    rw [hLdef]
    have h16 : (2 ^ 4 : Nat) ≤ 2 ^ p := Nat.pow_le_pow_right (by norm_num) hp
    calc (16 : ℚ) = ((2 ^ 4 : Nat) : ℚ) := by norm_num
      _ ≤ ((2 ^ p : Nat) : ℚ) := Nat.cast_le.mpr h16
  have hL1 : (0 : ℚ) < L - 1 := by linarith
  have hS : L - 1 ≤ count_sum regs (2 ^ p) := by
    have h := count_sum_ge regs (2 ^ p)
    rwa [Nat.cast_sub Nat.one_le_two_pow, Nat.cast_one] at h
  have hS0 : (0 : ℚ) < count_sum regs (2 ^ p) := lt_of_lt_of_le hL1 hS
  have hM0 : 0 ≤ hll_magic (2 ^ p) := hll_magic_nonneg (2 ^ p)
  have hM : hll_magic (2 ^ p) ≤ 7213 / 10000 := hll_magic_le (2 ^ p)
  unfold hll_estimate
  rw [hthr]
  have h1 : hll_magic (2 ^ p) * L * L * (1 / count_sum regs (2 ^ p))
      ≤ hll_magic (2 ^ p) * L * L * (1 / (L - 1)) := by
    apply mul_le_mul_of_nonneg_left (one_div_le_one_div_of_le hL1 hS)
    have : (0 : ℚ) ≤ L := by linarith
    positivity
  have h2 : hll_magic (2 ^ p) * L * L * (1 / (L - 1))
      ≤ (7213 / 10000) * L * L * (1 / (L - 1)) := by
    have hL0 : (0 : ℚ) ≤ L := by linarith
    have : (0 : ℚ) ≤ 1 / (L - 1) := by positivity
    apply mul_le_mul_of_nonneg_right _ this
    exact mul_le_mul_of_nonneg_right (mul_le_mul_of_nonneg_right hM hL0) hL0
  have h3 : (7213 / 10000) * L * L * (1 / (L - 1)) < 2 * L := by
    rw [mul_one_div, div_lt_iff₀ hL1]
    nlinarith [hL]
  calc hll_magic (2 ^ p) * L * L * (1 / count_sum regs (2 ^ p))
      ≤ hll_magic (2 ^ p) * L * L * (1 / (L - 1)) := h1
    _ ≤ (7213 / 10000) * L * L * (1 / (L - 1)) := h2
    _ < 2 * L := h3

/-- `hll_count` on an initialized struct with at least one zero register:
the small-range branch fires (always, by `hll_estimate_lt_threshold`) and
returns the linear-counting result. -/
theorem hll_count_linear (regs : List Nat) (p : Nat) (hp : 4 ≤ p)
    (hv : count_zero_registers regs (2 ^ p) ≠ 0) :
    hll_count ⟨some regs, p⟩
      = .linear_counting (2 ^ p) (count_zero_registers regs (2 ^ p)) := by
  show (if hll_estimate regs (2 ^ p) < ((5 / 2 : Nat) : ℚ) * ((2 ^ p : Nat) : ℚ) then _
    else _) = _
  rw [if_pos (hll_estimate_lt_threshold regs p hp), if_neg hv]

/-- `hll_count` on an initialized struct with no zero register: the
small-range branch fires and returns the (truncated) raw estimate. -/
theorem hll_count_small_raw (regs : List Nat) (p : Nat) (hp : 4 ≤ p)
    (hv : count_zero_registers regs (2 ^ p) = 0) :
    hll_count ⟨some regs, p⟩ = .small_raw (hll_estimate regs (2 ^ p)) := by
  show (if hll_estimate regs (2 ^ p) < ((5 / 2 : Nat) : ℚ) * ((2 ^ p : Nat) : ℚ) then _
    else _) = _
  rw [if_pos (hll_estimate_lt_threshold regs p hp), if_pos hv]

theorem hll_zeros_go_le (head : Nat) : ∀ (fuel i : Nat), hll_zeros_go head i fuel ≤ fuel := by
  intro fuel
  induction fuel with
  | zero => intro i; simp [hll_zeros_go]
  | succ fuel ih =>
    intro i
    unfold hll_zeros_go
    split
    · exact Nat.zero_le _
    · have := ih (i + 1)
      omega

theorem hll_zeros_go_testBit_false (head : Nat) :
    ∀ (fuel i j : Nat), j < hll_zeros_go head i fuel → head.testBit (i + j) = false := by
  intro fuel
  induction fuel with
  | zero => intro i j hj; simp [hll_zeros_go] at hj
  | succ fuel ih =>
    intro i j hj
    unfold hll_zeros_go at hj
    by_cases hb : head.testBit i
    · rw [if_pos hb] at hj; omega
    · rw [if_neg hb] at hj
      rcases j with _ | j
      · simpa using eq_false_of_ne_true hb
      · have := ih (i + 1) j (by omega)
        have harith : i + 1 + j = i + (j + 1) := by omega
        rwa [harith] at this

theorem hll_zeros_go_testBit_true (head : Nat) :
    ∀ (fuel i : Nat), hll_zeros_go head i fuel < fuel →
      head.testBit (i + hll_zeros_go head i fuel) = true := by
  intro fuel
  induction fuel with
  | zero => intro i h; omega
  | succ fuel ih =>
    intro i h
    unfold hll_zeros_go at h ⊢
    by_cases hb : head.testBit i
    · rw [if_pos hb]
      simpa using hb
    · rw [if_neg hb] at h ⊢
      have := ih (i + 1) (by omega)
      have harith : i + 1 + hll_zeros_go head (i + 1) fuel
          = i + (1 + hll_zeros_go head (i + 1) fuel) := by omega
      rwa [harith] at this

theorem hll_zeros_go_of_zero_head : ∀ (fuel i : Nat), hll_zeros_go 0 i fuel = fuel := by
  intro fuel
  induction fuel with
  | zero => intro i; rfl
  | succ fuel ih =>
    intro i
    unfold hll_zeros_go
    rw [if_neg (by simp [Nat.zero_testBit]), ih]
    omega

/-- When the masked head is nonzero, the zero count is strictly below the
precision: some bit below `precision` is set. -/
theorem hll_get_hash_zeros_lt (hash precision : Nat)
    (hne : hash % 2 ^ precision ≠ 0) :
    hll_get_hash_zeros hash precision < precision := by
  by_contra hge
  push_neg at hge
  unfold hll_get_hash_zeros at hge
  apply hne
  apply Nat.eq_of_testBit_eq
  intro i
  rw [Nat.zero_testBit]
  rcases lt_or_ge i precision with hi | hi
  · have := hll_zeros_go_testBit_false (hash % 2 ^ precision) 32 0 i (by omega)
    simpa using this
  · apply Nat.testBit_lt_two_pow
    calc hash % 2 ^ precision < 2 ^ precision := Nat.mod_lt _ (by positivity)
      _ ≤ 2 ^ i := Nat.pow_le_pow_right (by norm_num) hi

theorem hll_get_hash_zeros_of_zero_head (hash precision : Nat)
    (h0 : hash % 2 ^ precision = 0) : hll_get_hash_zeros hash precision = 32 := by
  unfold hll_get_hash_zeros
  rw [h0]
  exact hll_zeros_go_of_zero_head 32 0

/-- The merge loop body never decreases a register (generic over the values
being maxed in). -/
theorem getD_set_hll_max_le (rs : List Nat) (j x i : Nat) :
    rs.getD i 0 ≤ (rs.set j (hll_max (rs.getD j 0) x)).getD i 0 := by
  rcases eq_or_ne j i with rfl | hne
  · rcases lt_or_ge j rs.length with hlt | hge
    · rw [getD_set_lt rs hlt]
      exact le_hll_max_left _ _
    · rw [List.set_eq_of_length_le hge]
  · rw [getD_set_ne rs hne]

theorem foldl_set_hll_max_le (g : Nat → Nat) :
    ∀ (L : List Nat) (rs : List Nat) (i : Nat),
      rs.getD i 0 ≤ (L.foldl (fun rs j => rs.set j (hll_max (rs.getD j 0) (g j))) rs).getD i 0 := by
  intro L
  induction L with
  | nil => intro rs i; exact le_refl _
  | cons j L ih =>
    intro rs i
    rw [List.foldl_cons]
    exact le_trans (getD_set_hll_max_le rs j (g j) i)
      (ih (rs.set j (hll_max (rs.getD j 0) (g j))) i)

theorem merge_fold_length (sregs : List Nat) :
    ∀ (L : List Nat) (rs : List Nat),
      (L.foldl (fun rs i => rs.set i (hll_max (rs.getD i 0) (sregs.getD i 0))) rs).length
        = rs.length := by
  intro L
  induction L with
  | nil => intro rs; rfl
  | cons j L ih =>
    intro rs
    rw [List.foldl_cons, ih, List.length_set]

/-- Pointwise description of the merge loop: registers below the loop bound
become the max of destination and source, the rest are untouched. -/
theorem merge_fold_getD (sregs : List Nat) :
    ∀ (n : Nat) (dregs : List Nat), n ≤ dregs.length → ∀ i,
      ((List.range n).foldl (fun rs j => rs.set j (hll_max (rs.getD j 0) (sregs.getD j 0))) dregs).getD i 0
        = if i < n then max (dregs.getD i 0) (sregs.getD i 0) else dregs.getD i 0 := by
  intro n
  induction n with
  | zero => intro dregs _ i; simp
  | succ n ih =>
    intro dregs hlen i
    rw [List.range_succ, List.foldl_append]
    set F := (List.range n).foldl
      (fun rs j => rs.set j (hll_max (rs.getD j 0) (sregs.getD j 0))) dregs with hF
    have hFlen : F.length = dregs.length := merge_fold_length sregs (List.range n) dregs
    have hFget : ∀ i, F.getD i 0
        = if i < n then max (dregs.getD i 0) (sregs.getD i 0) else dregs.getD i 0 :=
      ih dregs (by omega)
    show (F.set n (hll_max (F.getD n 0) (sregs.getD n 0))).getD i 0 = _
    rcases eq_or_ne n i with rfl | hne
    · rw [getD_set_lt F (by omega), if_pos (by omega), hFget n, if_neg (by omega),
        hll_max_eq_max]
    · rw [getD_set_ne F hne, hFget i]
      rcases lt_or_ge i n with hi | hi
      · rw [if_pos hi, if_pos (by omega)]
      · rw [if_neg (by omega), if_neg (by omega)]

theorem hll_max_right_comm (a b c : Nat) :
    hll_max (hll_max a b) c = hll_max (hll_max a c) b := by
  simp only [hll_max_eq_max]
  rw [max_assoc, max_assoc, max_comm b c]

/-- Two register updates of the `hll_add` shape commute, whatever the two
indices and run statistics are. -/
theorem set_hll_max_comm (l : List Nat) (i j vi vj : Nat) :
    ((l.set i (hll_max (l.getD i 0) vi)).set j
        (hll_max ((l.set i (hll_max (l.getD i 0) vi)).getD j 0) vj))
      = ((l.set j (hll_max (l.getD j 0) vj)).set i
        (hll_max ((l.set j (hll_max (l.getD j 0) vj)).getD i 0) vi)) := by
  rcases eq_or_ne i j with rfl | hne
  · rcases lt_or_ge i l.length with hlt | hge
    · rw [getD_set_lt l hlt, getD_set_lt l hlt, List.set_set, List.set_set,
        hll_max_right_comm]
    · simp [List.set_eq_of_length_le hge]
  · rw [getD_set_ne l hne, getD_set_ne l hne.symm, List.set_comm _ _ _ hne]

theorem hll_add_state_comm (f : Nat → Nat → Nat) :
    ∀ (s : hll_t) (a b : Nat × Nat),
      hll_add_state f (hll_add_state f s a) b = hll_add_state f (hll_add_state f s b) a := by
  intro s a b
  rcases s with ⟨o, p⟩
  rcases o with _ | regs
  · rfl
  · simp only [hll_add_state, hll_add]
    exact congrArg (fun rs => hll_t.mk (some rs) p)
      (set_hll_max_comm regs (hll_index (f a.1 a.2 % 2 ^ 32) p)
        (hll_index (f b.1 b.2 % 2 ^ 32) p)
        (hll_get_hash_zeros (f a.1 a.2 % 2 ^ 32) p + 1)
        (hll_get_hash_zeros (f b.1 b.2 % 2 ^ 32) p + 1))

theorem foldl_comm_perm {α β : Type} (f : β → α → β)
    (hcomm : ∀ s a b, f (f s a) b = f (f s b) a) :
    ∀ {l₁ l₂ : List α}, l₁.Perm l₂ → ∀ s, l₁.foldl f s = l₂.foldl f s := by
  intro l₁ l₂ hp
  induction hp with
  | nil => intro s; rfl
  | cons x _ ih => intro s; rw [List.foldl_cons, List.foldl_cons, ih]
  | swap x y l => intro s; rw [List.foldl_cons, List.foldl_cons, List.foldl_cons,
      List.foldl_cons, hcomm]
  | trans _ _ ih₁ ih₂ => intro s; rw [ih₁, ih₂]

/-!  Claim theorems. -/

/-- C3: in `hll_count`, the sum `Z = Σ 2^(-registers[i])` (as computed by the
code) ranges over only the first `m - 1` registers, indices `0` through
`m - 2`; the last register, index `m - 1`, is excluded: the sum equals the
finite sum over `Finset.range (m - 1)`, and overwriting the last register
does not change it. -/
theorem c3_sum_excludes_last_register (p : Nat) (regs : List Nat)
    (hlen : regs.length = 2 ^ p) :
    count_sum regs (2 ^ p)
        = ∑ i ∈ Finset.range (2 ^ p - 1), pow_term (regs.getD i 0) ∧
    ∀ v, count_sum (regs.set (regs.length - 1) v) (2 ^ p) = count_sum regs (2 ^ p) := by
  constructor
  · exact count_sum_eq_sum regs (2 ^ p)
  · intro v
    rw [hlen, count_sum_eq_sum, count_sum_eq_sum]
    apply Finset.sum_congr rfl
    intro i hi
    rw [Finset.mem_range] at hi
    rw [getD_set_ne regs (by omega) v]

/-- Witness for C3 at precision 4 and the all-zero register array. -/
theorem c3_sum_excludes_last_register_witness :
    (List.replicate 16 0 : List Nat).length = 2 ^ 4 ∧
    (count_sum (List.replicate 16 0) (2 ^ 4)
        = ∑ i ∈ Finset.range (2 ^ 4 - 1), pow_term ((List.replicate 16 0 : List Nat).getD i 0) ∧
      ∀ v, count_sum ((List.replicate 16 0 : List Nat).set ((List.replicate 16 0 : List Nat).length - 1) v) (2 ^ 4)
        = count_sum (List.replicate 16 0) (2 ^ 4)) :=
  ⟨by decide, c3_sum_excludes_last_register 4 (List.replicate 16 0) (by decide)⟩

/-- C4: the run statistic that `hll_add` writes (via `hll_max`) into the
selected register is `hll_get_hash_zeros + 1`, where `hll_get_hash_zeros`
counts the consecutive zero bits of the hash masked to its low `precision`
bits, scanning from bit 0 upward; the statistic is at least 1, at most
`precision + 1` when a set bit exists in the masked window, and the zero
count equals the scan width 32 when the masked window has no set bit. -/
theorem c4_run_statistic (f : Nat → Nat → Nat) (p : Nat) (regs : List Nat)
    (e l : Nat) (hp1 : 4 ≤ p) (hp2 : p ≤ 16) :
    (hll_add f ⟨some regs, p⟩ e l).2._registers
      = some (regs.set (hll_index (f e l % 2 ^ 32) p)
          (hll_max (regs.getD (hll_index (f e l % 2 ^ 32) p) 0)
            (hll_get_hash_zeros (f e l % 2 ^ 32) p + 1))) ∧
    (∀ i < hll_get_hash_zeros (f e l % 2 ^ 32) p,
        (f e l % 2 ^ 32 % 2 ^ p).testBit i = false) ∧
    (hll_get_hash_zeros (f e l % 2 ^ 32) p < 32 →
        (f e l % 2 ^ 32 % 2 ^ p).testBit (hll_get_hash_zeros (f e l % 2 ^ 32) p) = true) ∧
    1 ≤ hll_get_hash_zeros (f e l % 2 ^ 32) p + 1 ∧
    (f e l % 2 ^ 32 % 2 ^ p ≠ 0 → hll_get_hash_zeros (f e l % 2 ^ 32) p + 1 ≤ p + 1) ∧
    (f e l % 2 ^ 32 % 2 ^ p = 0 → hll_get_hash_zeros (f e l % 2 ^ 32) p = 32) := by
  refine ⟨rfl, ?_, ?_, ?_, ?_, ?_⟩
  · intro i hi
    have := hll_zeros_go_testBit_false (f e l % 2 ^ 32 % 2 ^ p) 32 0 i hi
    simpa using this
  · intro hlt
    have := hll_zeros_go_testBit_true (f e l % 2 ^ 32 % 2 ^ p) 32 0 hlt
    simpa using this
  · omega
  · intro hne
    have := hll_get_hash_zeros_lt (f e l % 2 ^ 32) p hne
    omega
  · exact hll_get_hash_zeros_of_zero_head (f e l % 2 ^ 32) p

/-- Witness for C4 at a concrete hash function, precision 10 and element. -/
theorem c4_run_statistic_witness :
    4 ≤ 10 ∧ 10 ≤ 16 ∧
    ((hll_add (fun a b => a * 31 + b) ⟨some (List.replicate 1024 0), 10⟩ 12 4).2._registers
      = some ((List.replicate 1024 0 : List Nat).set (hll_index ((fun a b => a * 31 + b) 12 4 % 2 ^ 32) 10)
          (hll_max ((List.replicate 1024 0 : List Nat).getD (hll_index ((fun a b => a * 31 + b) 12 4 % 2 ^ 32) 10) 0)
            (hll_get_hash_zeros ((fun a b => a * 31 + b) 12 4 % 2 ^ 32) 10 + 1))) ∧
    (∀ i < hll_get_hash_zeros ((fun a b => a * 31 + b) 12 4 % 2 ^ 32) 10,
        ((fun a b => a * 31 + b) 12 4 % 2 ^ 32 % 2 ^ 10).testBit i = false) ∧
    (hll_get_hash_zeros ((fun a b => a * 31 + b) 12 4 % 2 ^ 32) 10 < 32 →
        ((fun a b => a * 31 + b) 12 4 % 2 ^ 32 % 2 ^ 10).testBit
          (hll_get_hash_zeros ((fun a b => a * 31 + b) 12 4 % 2 ^ 32) 10) = true) ∧
    1 ≤ hll_get_hash_zeros ((fun a b => a * 31 + b) 12 4 % 2 ^ 32) 10 + 1 ∧
    ((fun a b => a * 31 + b) 12 4 % 2 ^ 32 % 2 ^ 10 ≠ 0 →
        hll_get_hash_zeros ((fun a b => a * 31 + b) 12 4 % 2 ^ 32) 10 + 1 ≤ 10 + 1) ∧
    ((fun a b => a * 31 + b) 12 4 % 2 ^ 32 % 2 ^ 10 = 0 →
        hll_get_hash_zeros ((fun a b => a * 31 + b) 12 4 % 2 ^ 32) 10 = 32)) :=
  ⟨by decide, by decide,
    c4_run_statistic (fun a b => a * 31 + b) 10 (List.replicate 1024 0) 12 4
      (by decide) (by decide)⟩

/-- C5: registers are monotonically non-decreasing: no `hll_add` and no
`hll_merge` call (successful or not) ever decreases any register value of
the (destination) estimator. -/
theorem c5_registers_monotone :
    (∀ (f : Nat → Nat → Nat) (h : hll_t) (e l i : Nat),
        h.reg i ≤ ((hll_add f h e l).2).reg i) ∧
    (∀ (hd hs : hll_t) (i : Nat), hd.reg i ≤ ((hll_merge hd hs).2).reg i) := by
  constructor
  · intro f h e l i
    rcases h with ⟨o, p⟩
    rcases o with _ | regs
    · exact le_refl _
    · exact getD_set_hll_max_le regs (hll_index (f e l % 2 ^ 32) p)
        (hll_get_hash_zeros (f e l % 2 ^ 32) p + 1) i
  · intro hd hs i
    rcases hd with ⟨od, pd⟩
    rcases od with _ | dregs
    · rcases hs with ⟨os, ps⟩
      rcases os with _ | sregs <;> exact le_refl _
    · rcases hs with ⟨os, ps⟩
      rcases os with _ | sregs
      · exact le_refl _
      · exact foldl_set_hll_max_le (fun j => sregs.getD j 0)
          (List.range (min (2 ^ pd) (2 ^ ps))) dregs i

/-- C6: for initialized estimators, `hll_merge` returns `HLL_OK`, keeps the
destination precision, takes the register-wise `max` with the source on all
indices below `min (2 ^ pd) (2 ^ ps)` and leaves every other destination
register unchanged.  (The source struct is untouched: `hll_merge` only
produces a new destination.) -/
theorem c6_merge_registerwise_max (hd hs : hll_t) (dregs sregs : List Nat)
    (hdr : hd._registers = some dregs) (hsr : hs._registers = some sregs)
    (hdl : dregs.length = 2 ^ hd.precision) (hsl : sregs.length = 2 ^ hs.precision) :
    (hll_merge hd hs).1 = HLL_OK ∧
    (hll_merge hd hs).2.precision = hd.precision ∧
    ∀ i, ((hll_merge hd hs).2).reg i
      = if i < min (2 ^ hd.precision) (2 ^ hs.precision)
        then max (dregs.getD i 0) (sregs.getD i 0)
        else dregs.getD i 0 := by
  rcases hd with ⟨od, pd⟩
  rcases hs with ⟨os, ps⟩
  cases hdr
  cases hsr
  refine ⟨rfl, rfl, ?_⟩
  intro i
  exact merge_fold_getD sregs (min (2 ^ pd) (2 ^ ps)) dregs
    (by simp only [] at hdl; omega) i

/-- Witness for C6 at precision 4 destinations and sources. -/
theorem c6_merge_registerwise_max_witness :
    (⟨some (List.replicate 16 2), 4⟩ : hll_t)._registers = some (List.replicate 16 2) ∧
    (⟨some (List.range 16), 4⟩ : hll_t)._registers = some (List.range 16) ∧
    (List.replicate 16 2 : List Nat).length = 2 ^ (⟨some (List.replicate 16 2), 4⟩ : hll_t).precision ∧
    (List.range 16).length = 2 ^ (⟨some (List.range 16), 4⟩ : hll_t).precision ∧
    ((hll_merge ⟨some (List.replicate 16 2), 4⟩ ⟨some (List.range 16), 4⟩).1 = HLL_OK ∧
      (hll_merge ⟨some (List.replicate 16 2), 4⟩ ⟨some (List.range 16), 4⟩).2.precision
        = (⟨some (List.replicate 16 2), 4⟩ : hll_t).precision ∧
      ∀ i, ((hll_merge ⟨some (List.replicate 16 2), 4⟩ ⟨some (List.range 16), 4⟩).2).reg i
        = if i < min (2 ^ (⟨some (List.replicate 16 2), 4⟩ : hll_t).precision)
                    (2 ^ (⟨some (List.range 16), 4⟩ : hll_t).precision)
          then max ((List.replicate 16 2 : List Nat).getD i 0) ((List.range 16).getD i 0)
          else (List.replicate 16 2 : List Nat).getD i 0) :=
  ⟨rfl, rfl, by decide, by decide,
    c6_merge_registerwise_max ⟨some (List.replicate 16 2), 4⟩ ⟨some (List.range 16), 4⟩
      (List.replicate 16 2) (List.range 16) rfl rfl (by decide) (by decide)⟩

/-- C9: for a fixed hash function and precision, folding the same multiset of
`(element, element_len)` pairs in any order through `hll_add` into a freshly
initialized estimator yields identical final register contents. -/
theorem c9_add_order_independent (f : Nat → Nat → Nat) (h0 : hll_t) (p : Nat)
    (hp1 : 4 ≤ p) (hp2 : p ≤ 16) (l₁ l₂ : List (Nat × Nat)) (hperm : l₁.Perm l₂) :
    (l₁.foldl (hll_add_state f) (hll_init2 h0 p).2)._registers
      = (l₂.foldl (hll_add_state f) (hll_init2 h0 p).2)._registers := by
  rw [foldl_comm_perm (hll_add_state f) (hll_add_state_comm f) hperm ((hll_init2 h0 p).2)]

/-- Witness for C9: two orderings of three elements at precision 4. -/
theorem c9_add_order_independent_witness :
    4 ≤ 4 ∧ (4 : Nat) ≤ 16 ∧
    ([((1 : Nat), (4 : Nat)), (2, 4), (3, 4)]).Perm [(3, 4), (1, 4), (2, 4)] ∧
    ([((1 : Nat), (4 : Nat)), (2, 4), (3, 4)].foldl (hll_add_state (fun a b => a * 31 + b))
        (hll_init2 ⟨none, 0⟩ 4).2)._registers
      = ([((3 : Nat), (4 : Nat)), (1, 4), (2, 4)].foldl (hll_add_state (fun a b => a * 31 + b))
        (hll_init2 ⟨none, 0⟩ 4).2)._registers :=
  ⟨by decide, by decide, by decide,
    c9_add_order_independent (fun a b => a * 31 + b) ⟨none, 0⟩ 4 (by decide) (by decide)
      [(1, 4), (2, 4), (3, 4)] [(3, 4), (1, 4), (2, 4)] (by decide)⟩

/-- C10: for every 32-bit hash value and precision in `[4, 16]`, the register
index `(h & ~((1 << (32-p)) - 1)) >> (32-p)` computed by `hll_add` is below
`2 ^ p`, so the update stays inside the length-`2 ^ p` register array. -/
theorem c10_index_in_bounds (h p : Nat) (hh : h < 2 ^ 32) (hp1 : 4 ≤ p) (hp2 : p ≤ 16) :
    hll_index h p < 2 ^ p := by
  unfold hll_index
  rw [Nat.shiftRight_eq_div_pow]
  rw [Nat.div_lt_iff_lt_mul (by positivity)]
  calc (h &&& ((2 ^ 32 - 1) ^^^ ((1 <<< (32 - p)) - 1))) ≤ h := Nat.and_le_left
    _ < 2 ^ 32 := hh
    _ ≤ 2 ^ p * 2 ^ (32 - p) := by
        rw [← pow_add]
        exact Nat.pow_le_pow_right (by norm_num) (by omega)

/-- Witness for C10 at a concrete 32-bit hash value and precision 10. -/
theorem c10_index_in_bounds_witness :
    123456789 < 2 ^ 32 ∧ 4 ≤ 10 ∧ 10 ≤ 16 ∧ hll_index 123456789 10 < 2 ^ 10 :=
  ⟨by decide, by decide, by decide, c10_index_in_bounds 123456789 10 (by decide) (by decide) (by decide)⟩

/-- C1 (divergence at a concrete input): on the initialized estimator with
precision 4 and all 16 registers equal to 5, `hll_count` takes the
small-range branch even though the spec-side raw estimate
`E = alpha * m * m / Z` (with `Z` the true sum of negative powers of two) is
about 367.5, far above `5/2 * m = 40`.  The code's guard is
`estimate < 5 / 2 * registers_len` with integer `5 / 2 = 2`, and its
`estimate` is computed from `powf(2, -registers[i])` where the unsigned
negation makes the sum astronomically large, so the computed estimate is
(essentially) zero and the small-range branch always fires. -/
theorem c1_small_range_divergence :
    (hll_count ⟨some (List.replicate 16 5), 4⟩).is_small_range = true ∧
    ¬ (raw_estimate_spec (List.replicate 16 5) 16 ≤ 5 / 2 * 16) := by
  constructor
  · rw [hll_count_small_raw (List.replicate 16 5) 4 (le_refl 4) (by decide)]
    rfl
  · have hsum : (∑ i ∈ Finset.range (16 - 1),
        ((2 : ℚ) ^ (List.replicate 16 5 : List Nat).getD i 0)⁻¹) = 15 / 32 := by
      have hterm : ∀ i ∈ Finset.range (16 - 1),
          ((2 : ℚ) ^ (List.replicate 16 5 : List Nat).getD i 0)⁻¹ = 1 / 32 := by
        intro i hi
        rw [Finset.mem_range] at hi
        have hg : (List.replicate 16 5 : List Nat).getD i 0 = 5 := by
          rw [List.getD_eq_getElem?_getD, List.getElem?_replicate, if_pos (by omega)]
          rfl
        rw [hg]
        norm_num
      rw [Finset.sum_congr rfl hterm, Finset.sum_const, Finset.card_range]
      norm_num
    unfold raw_estimate_spec
    rw [hsum]
    norm_num [hll_magic]

/-- C2 (divergence at a concrete input): on the initialized estimator with
precision 4, seven registers equal to 1 and nine registers equal to 0,
`hll_count` reaches the linear-counting return with `m = 16` and `V = 9`.
The C return value is `m * logf(m / V)` where `m / V` is unsigned integer
division: `16 / 9 = 1`, so the returned estimate is `16 * ln 1 = 0`, whereas
the linear-counting estimate with the exact ratio, `16 * ln (16 / 9)`, is
strictly positive (about 9.2). -/
theorem c2_linear_counting_divergence :
    hll_count ⟨some (List.replicate 7 1 ++ List.replicate 9 0), 4⟩
      = .linear_counting 16 9 ∧
    (16 / 9 : Nat) = 1 ∧
    (16 : ℝ) * Real.log ((16 / 9 : Nat) : ℝ) = 0 ∧
    0 < (16 : ℝ) * Real.log ((16 : ℝ) / 9) := by
  refine ⟨?_, by decide, ?_, ?_⟩
  · rw [hll_count_linear (List.replicate 7 1 ++ List.replicate 9 0) 4 (le_refl 4) (by decide)]
    have h9 : count_zero_registers (List.replicate 7 1 ++ List.replicate 9 0) (2 ^ 4) = 9 := by
      decide
    rw [h9]
    rfl
  · have h1 : ((16 / 9 : Nat) : ℝ) = 1 := by norm_num
    rw [h1, Real.log_one, mul_zero]
  · exact mul_pos (by norm_num) (Real.log_pos (by norm_num))

/-- C7 (counterexample): calling init with the out-of-range precision 3 on a
destination whose precision field is 10 returns `InvalidPrecision`, yet the
destination is not left unchanged: the C code executes `*hll = *hll_src`
before validating, so the destination's fields are overwritten with the
template's fields (its precision becomes 3). -/
theorem c7_invalid_precision_mutates :
    (hll_init2 ⟨none, 10⟩ 3).1 = HLL_ERROR_INVALID_PRECISION ∧
    (hll_init2 ⟨none, 10⟩ 3).2 ≠ (⟨none, 10⟩ : hll_t) := by
  constructor
  · decide
  · decide

/-- C7 (amended): `hll_add`, `hll_merge` and `hll_destroy` mutate no state
when they report an error; `_hll_init_impl` with an out-of-range precision
returns `InvalidPrecision` without allocating a register array, but only
after copying the source template over the destination, so the destination
ends as an exact copy of the template rather than unchanged. -/
theorem c7_error_atomicity_amended :
    (∀ (h src : hll_t),
        (src.precision < HLL_PRECISION_MIN ∨ HLL_PRECISION_MAX < src.precision) →
        _hll_init_impl h (some src) = (HLL_ERROR_INVALID_PRECISION, src)) ∧
    (∀ (f : Nat → Nat → Nat) (h : hll_t) (e l : Nat),
        (hll_add f h e l).1 ≠ HLL_OK → (hll_add f h e l).2 = h) ∧
    (∀ (hd hs : hll_t), (hll_merge hd hs).1 ≠ HLL_OK → (hll_merge hd hs).2 = hd) ∧
    (∀ (h : hll_t), (hll_destroy h).1 ≠ HLL_OK → (hll_destroy h).2 = h) := by
  refine ⟨?_, ?_, ?_, ?_⟩
  · intro h src hbad
    simp only [_hll_init_impl]
    rw [if_pos hbad]
  · intro f h e l hne
    rcases h with ⟨o, p⟩
    rcases o with _ | regs
    · rfl
    · exact absurd rfl hne
  · intro hd hs hne
    rcases hd with ⟨od, pd⟩
    rcases hs with ⟨os, ps⟩
    rcases od with _ | dregs <;> rcases os with _ | sregs
    · rfl
    · rfl
    · rfl
    · exact absurd rfl hne
  · intro h hne
    by_cases hc : h._registers = none
    · simp [hll_destroy, hc]
    · exact absurd (by simp [hll_destroy, hc]) hne

/-- Witness for the amended C7 at concrete inputs for each conjunct. -/
theorem c7_error_atomicity_amended_witness :
    (((⟨none, 3⟩ : hll_t).precision < HLL_PRECISION_MIN
        ∨ HLL_PRECISION_MAX < (⟨none, 3⟩ : hll_t).precision) ∧
      _hll_init_impl ⟨none, 10⟩ (some ⟨none, 3⟩) = (HLL_ERROR_INVALID_PRECISION, ⟨none, 3⟩)) ∧
    ((hll_add (fun a b => a + b) ⟨none, 10⟩ 1 4).1 ≠ HLL_OK ∧
      (hll_add (fun a b => a + b) ⟨none, 10⟩ 1 4).2 = ⟨none, 10⟩) ∧
    ((hll_merge ⟨none, 10⟩ ⟨none, 10⟩).1 ≠ HLL_OK ∧
      (hll_merge ⟨none, 10⟩ ⟨none, 10⟩).2 = ⟨none, 10⟩) ∧
    ((hll_destroy ⟨none, 10⟩).1 ≠ HLL_OK ∧ (hll_destroy ⟨none, 10⟩).2 = ⟨none, 10⟩) :=
  ⟨⟨Or.inl (by decide),
      c7_error_atomicity_amended.1 ⟨none, 10⟩ ⟨none, 3⟩ (Or.inl (by decide))⟩,
    ⟨by decide, c7_error_atomicity_amended.2.1 (fun a b => a + b) ⟨none, 10⟩ 1 4 (by decide)⟩,
    ⟨by decide, c7_error_atomicity_amended.2.2.1 ⟨none, 10⟩ ⟨none, 10⟩ (by decide)⟩,
    ⟨by decide, c7_error_atomicity_amended.2.2.2 ⟨none, 10⟩ (by decide)⟩⟩

/-- C8 (divergence at a concrete input): destroying a freshly initialized
estimator succeeds, and destroying the returned struct again also returns
`HLL_OK` — not `HLL_ERROR_HLL_UNINITIALIZED` — because the C code frees the
array without clearing `_registers`, so the second call's NULL check passes
and the same pointer is freed twice.  The check does fire for a
never-initialized (NULL-array) estimator. -/
theorem c8_double_destroy_not_detected :
    (hll_destroy (hll_init2 ⟨none, 0⟩ 4).2).1 = HLL_OK ∧
    (hll_destroy (hll_destroy (hll_init2 ⟨none, 0⟩ 4).2).2).1 = HLL_OK ∧
    (hll_destroy (hll_destroy (hll_init2 ⟨none, 0⟩ 4).2).2).1 ≠ HLL_ERROR_HLL_UNINITIALIZED ∧
    (hll_destroy ⟨none, 4⟩).1 = HLL_ERROR_HLL_UNINITIALIZED :=
  ⟨by decide, by decide, by decide, by decide⟩
